import Mathlib

/- Shallow embedding of the per-function type-checking environment
(crates/hir-analysis/src/ty/ty_check/env.rs) and of the generic type
traversal framework (crates/hir-analysis/src/ty/visitor.rs), with proofs
of the specification claims about them.

Rust panics (unwrap / panic!) are modelled by Option: an operation
returns none exactly when the source would abort.  The salsa database,
which the environment only queries, is passed explicitly as a `Db`
record of the query functions the embedded code uses. -/

namespace Fe

/-- Opaque identifier handle for names interned in the HIR database. -/
abbrev IdentId := Nat

/-- Opaque identifier handle for expressions of a body. -/
abbrev ExprId := Nat

/-- Opaque identifier handle for patterns of a body. -/
abbrev PatId := Nat

/-- Opaque identifier handle for statements of a body. -/
abbrev StmtId := Nat

/-- Opaque handle for a HIR `Body`. -/
abbrev BodyId := Nat

/-- Opaque handle for a surface-syntax (HIR) type annotation. -/
abbrev HirTyId := Nat

/-- Model of hir `Partial<T>`: a node that may be syntactically absent. -/
inductive PartialNode (α : Type) where
  | present (a : α)
  | absent
deriving DecidableEq

/-- Model of hir `ScopeId`, restricted to the two shapes `env.rs` builds:
an item scope (a function's own definition scope, abstracted to an
opaque number) or a block scope identified by body and block expression. -/
inductive ScopeId where
  | item (n : Nat)
  | block (body : BodyId) (expr : ExprId)
deriving DecidableEq

/-- Model of hir `Expr`, abstracted to what `env.rs` inspects: whether
the expression is an `Expr::Block` (with its statements) or anything
else. -/
inductive Expr where
  | block (stmts : List StmtId)
  | other (tag : Nat)
deriving DecidableEq

/-- Model of `TyVarSort` from `ty_def.rs`: a general variable, an
integral-literal variable, or a string-literal variable tracking the
literal's length. -/
inductive TyVarSort where
  | general
  | integral
  | string (len : Nat)
deriving DecidableEq

/-- Model of `TyVar`: a unification variable with its sort and key. -/
structure TyVar where
  sort : TyVarSort
  key : Nat
deriving DecidableEq

/-- Model of `TyParam`: a generic type parameter. -/
structure TyParam where
  name : IdentId
  idx : Nat
deriving DecidableEq

/-- Model of `PrimTy`, restricted to the primitives this development
mentions (`String` and its const-length parameter type `u256`). -/
inductive PrimTy where
  | bool
  | u256
  | string
  | other (tag : Nat)
deriving DecidableEq

/-- Model of `TyBase`: primitive, algebraic, or function base type. -/
inductive TyBase where
  | prim (p : PrimTy)
  | adt (a : Nat)
  | func (f : Nat)
deriving DecidableEq

/-- Model of `EvaluatedConstTy`. -/
inductive EvaluatedConstTy where
  | litInt (n : Nat)
  | litBool (b : Bool)
deriving DecidableEq

/-- Model of `InvalidCause`; `InvalidCause::Other` is the only cause the
embedded sources construct. -/
inductive InvalidCause where
  | other
deriving DecidableEq

/-- Model of `ConstTyData` from `const_ty.rs`.  In the source each
variant additionally carries the const type's carrier `TyId`; here the
carrier is stored once in the `Ty.constTy` node instead of being
duplicated in every variant. -/
inductive ConstTyData where
  | cVar (v : TyVar)
  | cParam (p : TyParam)
  | evaluated (e : EvaluatedConstTy)
  | unevaluated (body : BodyId)
deriving DecidableEq

/-- Model of `TyData` / interned `TyId` from `ty_def.rs` (interning is
represented by the tree itself): type variables, type parameters,
applications, base types, const types (carrier plus data), the never
type, and invalid-with-cause. -/
inductive Ty where
  | tyVar (v : TyVar)
  | tyParam (p : TyParam)
  | tyApp (abs arg : Ty)
  | tyBase (b : TyBase)
  | constTy (cty : Ty) (cdata : ConstTyData)
  | never
  | invalid (cause : InvalidCause)
deriving DecidableEq

/-- Model of `LocalBinding` from `env.rs`.  (`Local` is renamed to
`localPat` because `local` is a Lean keyword.) -/
inductive LocalBinding where
  | localPat (pat : PatId) (is_mut : Bool)
  | param (idx : Nat) (ty : Ty) (is_mut : Bool)
deriving DecidableEq

/-- Model of `ExprProp` from `env.rs`. -/
structure ExprProp where
  ty : Ty
  is_mut : Bool
  binding : Option LocalBinding
deriving DecidableEq

/-- Modelled from the spec: `Callable` (defined in `ty_check/callable.rs`,
which is not among the sampled sources) is an opaque descriptor of a
resolved call target; all the embedded code needs is that it carries
type content which the finishing step substitutes, modelled as one type. -/
structure Callable where
  ty : Ty
deriving DecidableEq

/-- Model of `BlockEnv` from `env.rs`: one lexical level with its scope
id, its name-to-binding table, and its position in the scope stack. -/
structure BlockEnv where
  scope : ScopeId
  vars : List (IdentId × LocalBinding)
  idx : Nat
deriving DecidableEq

/-- Model of `TyCheckEnv` from `env.rs` (the `db` reference is passed to
the operations that query it instead of being stored). -/
structure TyCheckEnv where
  body : BodyId
  pat_ty : List (PatId × Ty)
  expr_ty : List (ExprId × ExprProp)
  callables : List (ExprId × Callable)
  var_env : List BlockEnv
  pending_vars : List (IdentId × LocalBinding)
  loop_stack : List StmtId
deriving DecidableEq

/-- Model of `TypedBody` from `ty_check` (shape per spec section 3): the
immutable output of finishing. -/
structure TypedBody where
  body : Option BodyId
  pat_ty : List (PatId × Ty)
  expr_ty : List (ExprId × ExprProp)
  callables : List (ExprId × Callable)
deriving DecidableEq

/-- Model of a function parameter as `new_with_func` reads it: optional
name, possibly-absent type annotation, mutability. -/
structure FuncParam where
  name : Option IdentId
  ty : PartialNode HirTyId
  is_mut : Bool
deriving DecidableEq

/-- Model of hir `Func` as `new_with_func` reads it. -/
structure Func where
  body : Option BodyId
  params : PartialNode (List FuncParam)
  scope : ScopeId

/-- The database queries used by the embedded code: expression data of a
body, a body's root expression, type lowering, and the star-kind check
(`lower_hir_ty` and `is_star_kind` are external collaborators whose
internals the embedded sources do not contain). -/
structure Db where
  exprData : BodyId → ExprId → PartialNode Expr
  bodyExpr : BodyId → ExprId
  lowerHirTy : HirTyId → ScopeId → Ty
  isStarKind : Ty → Bool

/-- Association-list model of `FxHashMap` lookup. -/
def lookupA {α : Type} (k : Nat) : List (Nat × α) → Option α
  | [] => none
  | (k', v) :: rest => if k = k' then some v else lookupA k rest

/-- Association-list model of `FxHashMap::insert`: a keyed insert
overwrites any previous entry for the key. -/
def insertA {α : Type} (k : Nat) (v : α) (l : List (Nat × α)) : List (Nat × α) :=
  (k, v) :: l.filter (fun p => p.1 != k)

/-- Model of `Vec::last_mut().unwrap()` followed by a mutation of the
last element; none models the unwrap panic on an empty vector. -/
def updateLast {α : Type} (f : α → α) : List α → Option (List α)
  | [] => none
  | [a] => some [f a]
  | a :: b :: rest => (updateLast f (b :: rest)).map (a :: ·)

/-- Model of `BlockEnv::lookup_var`. -/
def lookup_var (B : BlockEnv) (v : IdentId) : Option LocalBinding :=
  lookupA v B.vars

/-- Model of `BlockEnv::register_var`. -/
def register_var (B : BlockEnv) (name : IdentId) (v : LocalBinding) : BlockEnv :=
  { B with vars := insertA name v B.vars }

/-- Model of `TyCheckEnv::scope`: `self.var_env.last().unwrap().scope`;
none models the unwrap panic on an empty scope stack. -/
def scope (env : TyCheckEnv) : Option ScopeId :=
  env.var_env.getLast?.map (·.scope)

/-- Model of `TyCheckEnv::current_block_idx`. -/
def current_block_idx (env : TyCheckEnv) : Option Nat :=
  env.var_env.getLast?.map (·.idx)

/-- Model of `TyCheckEnv::enter_scope`: if the expression's data is a
block, the new stack entry is keyed by the block's identity, otherwise
by the current scope (`self.scope()`, which panics on an empty stack);
either way a fresh `BlockEnv` is pushed. -/
def enter_scope (db : Db) (env : TyCheckEnv) (block : ExprId) : Option TyCheckEnv :=
  let newScope : Option ScopeId :=
    match db.exprData env.body block with
    | .present (.block _) => some (.block env.body block)
    | _ => scope env
  newScope.map fun ns =>
    { env with var_env := env.var_env ++ [{ scope := ns, vars := [], idx := env.var_env.length }] }

/-- Model of `TyCheckEnv::leave_scope`: `self.var_env.pop().unwrap()`;
none models the unwrap panic, which fires exactly when the stack is
already empty. -/
def leave_scope (env : TyCheckEnv) : Option TyCheckEnv :=
  match env.var_env with
  | [] => none
  | _ :: _ => some { env with var_env := env.var_env.dropLast }

/-- Model of `TyCheckEnv::enter_loop`. -/
def enter_loop (env : TyCheckEnv) (stmt : StmtId) : TyCheckEnv :=
  { env with loop_stack := env.loop_stack ++ [stmt] }

/-- Model of `TyCheckEnv::leave_loop` (`Vec::pop` with the result
discarded, so no panic on an empty stack). -/
def leave_loop (env : TyCheckEnv) : TyCheckEnv :=
  { env with loop_stack := env.loop_stack.dropLast }

/-- Model of `TyCheckEnv::current_loop`. -/
def current_loop (env : TyCheckEnv) : Option StmtId :=
  env.loop_stack.getLast?

/-- Model of `TyCheckEnv::typed_expr`. -/
def typed_expr (env : TyCheckEnv) (expr : ExprId) : Option ExprProp :=
  lookupA expr env.expr_ty

/-- Model of `TyCheckEnv::type_expr`. -/
def type_expr (env : TyCheckEnv) (expr : ExprId) (typed : ExprProp) : TyCheckEnv :=
  { env with expr_ty := insertA expr typed env.expr_ty }

/-- Model of `TyCheckEnv::type_pat`. -/
def type_pat (env : TyCheckEnv) (pat : PatId) (ty : Ty) : TyCheckEnv :=
  { env with pat_ty := insertA pat ty env.pat_ty }

/-- Model of `TyCheckEnv::register_callable`: the source inserts and
panics when an entry for the expression already existed; none models the
panic. -/
def register_callable (env : TyCheckEnv) (expr : ExprId) (c : Callable) : Option TyCheckEnv :=
  if (lookupA expr env.callables).isSome then none
  else some { env with callables := insertA expr c env.callables }

/-- Model of `TyCheckEnv::register_pending_binding`: stage a binding in
the pending table without touching any scope. -/
def register_pending_binding (env : TyCheckEnv) (name : IdentId) (b : LocalBinding) : TyCheckEnv :=
  { env with pending_vars := insertA name b env.pending_vars }

/-- Model of `TyCheckEnv::flush_pending_bindings`: drain every pending
binding into the current (innermost) scope; none models the
`last_mut().unwrap()` panic on an empty scope stack. -/
def flush_pending_bindings (env : TyCheckEnv) : Option TyCheckEnv :=
  (updateLast (fun B => env.pending_vars.foldl (fun B p => register_var B p.1 p.2) B)
      env.var_env).map
    fun ve => { env with var_env := ve, pending_vars := [] }

/-- Model of `TyCheckEnv::lookup_binding_ty`: a parameter binding's
stored type, or the type recorded for a local binding's pattern,
defaulting to the invalid marker when the pattern was never typed. -/
def lookup_binding_ty (env : TyCheckEnv) (b : LocalBinding) : Ty :=
  match b with
  | .localPat pat _ => (lookupA pat env.pat_ty).getD (Ty.invalid .other)
  | .param _ ty _ => ty

/-- The lowering of one declared parameter type in `new_with_func`: an
absent annotation becomes the invalid marker, and a lowered type that
fails the star-kind check is replaced by the invalid marker. -/
def lowered_param_ty (db : Db) (fscope : ScopeId) (p : FuncParam) : Ty :=
  let ty0 := match p.ty with
    | .present hirTy => db.lowerHirTy hirTy fscope
    | .absent => Ty.invalid .other
  if db.isStarKind ty0 then ty0 else Ty.invalid .other

/-- The parameter loop of `new_with_func`: walk the parameter list with
its running index, skip unnamed parameters, and register each named one
in the innermost scope (`var_env.last_mut().unwrap()`, whose panic is
modelled by none). -/
def registerParams (db : Db) (fscope : ScopeId) :
    Nat → List FuncParam → TyCheckEnv → Option TyCheckEnv
  | _, [], env => some env
  | idx, p :: rest, env =>
    match p.name with
    | none => registerParams db fscope (idx + 1) rest env
    | some nm =>
      ((updateLast (fun B => register_var B nm (.param idx (lowered_param_ty db fscope p) p.is_mut))
          env.var_env).map
        fun ve => { env with var_env := ve }).bind
        (registerParams db fscope (idx + 1) rest)

/-- Model of `TyCheckEnv::new_with_func`: fail when the function has no
body; seed the stack with a root scope for the function's definition
scope at position 0; enter the body's root expression; fail when the
parameter list is syntactically absent; then register the named
parameters. -/
def new_with_func (db : Db) (func : Func) : Option TyCheckEnv :=
  match func.body with
  | none => none
  | some body =>
    let env : TyCheckEnv :=
      { body := body
        pat_ty := []
        expr_ty := []
        callables := []
        var_env := [{ scope := func.scope, vars := [], idx := 0 }]
        pending_vars := []
        loop_stack := [] }
    (enter_scope db env (db.bodyExpr body)).bind fun env =>
      match func.params with
      | .absent => none
      | .present ps => registerParams db func.scope 0 ps env

/-- Structural size of a type, used as a termination measure. -/
def sizeTy : Ty → Nat
  | .tyApp f x => sizeTy f + sizeTy x + 1
  | .constTy cty _ => sizeTy cty + 1
  | _ => 1

/-- Every type variable occurring in the type (at `TyData` level) is
unassigned in the given assignment. -/
def noAssigned (a : Nat → Option Ty) : Ty → Bool
  | .tyVar v => (a v.key).isNone
  | .tyApp f x => noAssigned a f && noAssigned a x
  | .constTy cty _ => noAssigned a cty
  | _ => true

/-- Modelled from the spec: `UnificationTable::fold_ty` (unify.rs is not
among the sampled sources; the spec exposes the table only through
`resolve_and_fold(type) -> type`, "fully substituting bound variables").
Modelled as the deep substitution induced by a variable assignment. -/
def tableFold (a : Nat → Option Ty) : Ty → Ty
  | .tyVar v => (a v.key).getD (.tyVar v)
  | .tyApp f x => .tyApp (tableFold a f) (tableFold a x)
  | .constTy cty d => .constTy (tableFold a cty) d
  | t => t

/-- Modelled from the spec: the unification table.  `resolved` states
that assigned types are fully resolved ("fully substituting bound
variables"): every variable occurring in an assigned type is itself
unassigned. -/
structure UnificationTable where
  assign : Nat → Option Ty
  resolved : ∀ k u, assign k = some u → noAssigned assign u = true

/-- The defaulted string type that `finish` builds for a surviving
string-sort variable: the base string type applied to an evaluated const
length (whose carrier is the string base type's const parameter type). -/
def stringTyApp (len : Nat) : Ty :=
  .tyApp (.tyBase (.prim .string)) (.constTy (.tyBase (.prim .u256)) (.evaluated (.litInt len)))

/-- Model of `EnvFinisher::fold_ty` from `TyCheckEnv::finish`, with an
explicit fuel counter making the open recursion structural: first
substitute through the unification table; if the result is a type
variable of string sort, replace it by the defaulted string type;
otherwise recurse structurally into the result (`super_fold_with`,
modelled from the spec since fold.rs is not among the sampled sources:
the canonical structural fold re-enters `fold_ty` on each component type
and leaves leaves unchanged).  The fuel chosen by `finFold` is proven
sufficient (`finFoldAux_fuel`): with a resolved table the exhaustion
branch is never reached. -/
def finFoldAux (T : UnificationTable) : Nat → Ty → Ty
  | 0, t => tableFold T.assign t
  | fuel + 1, t =>
    match tableFold T.assign t with
    | .tyVar v =>
      match v.sort with
      | .string len => stringTyApp len
      | _ => .tyVar v
    | .tyApp f x => .tyApp (finFoldAux T fuel f) (finFoldAux T fuel x)
    | .constTy cty d => .constTy (finFoldAux T fuel cty) d
    | .tyParam p => .tyParam p
    | .tyBase b => .tyBase b
    | .never => .never
    | .invalid c => .invalid c

/-- Model of `EnvFinisher::fold_ty`: run the finishing recursion with
enough fuel for the substituted type. -/
def finFold (T : UnificationTable) (t : Ty) : Ty :=
  finFoldAux T (sizeTy (tableFold T.assign t)) t

/-- Model of `TyCheckEnv::finish`: substitute every recorded expression
type, pattern type, and callable through the finishing folder and
package the immutable `TypedBody`.  (Folding an `ExprProp` or a
`Callable` folds the type it carries; modelled from the spec since the
corresponding `TyFoldable` instances are not among the sampled sources.) -/
def finish (env : TyCheckEnv) (T : UnificationTable) : TypedBody :=
  { body := some env.body
    pat_ty := env.pat_ty.map fun p => (p.1, finFold T p.2)
    expr_ty := env.expr_ty.map fun p => (p.1, { p.2 with ty := finFold T p.2.ty })
    callables := env.callables.map fun p => (p.1, { ty := finFold T p.2.ty }) }

/-- Model of `TyVisitor` from visitor.rs: one overridable hook per type
shape, with one extra hook per base-type sub-shape.  The hooks are
accumulator-passing (`S` is the visitor's mutable state).  Hooks whose
Rust defaults recurse through `self.visit_ty` receive the recursion on
the relevant component as an explicit function argument (the open
recursion of the trait made explicit); every default below performs
exactly the source's canonical structural recursion, and `visit_ty`
itself is the fixed dispatcher `walk_ty`. -/
structure TyVisitor (S : Type) where
  visit_var : S → TyVar → S := fun s _ => s
  visit_param : S → TyParam → S := fun s _ => s
  visit_const_param : S → TyParam → Ty → S := fun s _ _ => s
  visit_prim : S → PrimTy → S := fun s _ => s
  visit_adt : S → Nat → S := fun s _ => s
  visit_func : S → Nat → S := fun s _ => s
  visit_invalid : S → InvalidCause → S := fun s _ => s
  visit_app : S → Ty → Ty → (S → S) → (S → S) → S :=
    fun s _ _ visitAbs visitArg => visitArg (visitAbs s)
  visit_ty_base : S → TyBase → S := fun s b =>
    match b with
    | .prim p => visit_prim s p
    | .adt a => visit_adt s a
    | .func f => visit_func s f
  visit_const_ty : S → Ty → ConstTyData → (S → S) → S := fun s cty d visitCarrier =>
    let s := visitCarrier s
    match d with
    | .cVar v => visit_var s v
    | .cParam p => visit_const_param s p cty
    | .evaluated _ => s
    | .unevaluated _ => s

/-- Model of `walk_ty` from visitor.rs: dispatch on the type's shape to
the visitor's hooks, handing the composite hooks the recursion on their
components. -/
def walk_ty {S : Type} (V : TyVisitor S) : S → Ty → S
  | s, .tyVar v => V.visit_var s v
  | s, .tyParam p => V.visit_param s p
  | s, .tyApp f x => V.visit_app s f x (fun s => walk_ty V s f) (fun s => walk_ty V s x)
  | s, .tyBase b => V.visit_ty_base s b
  | s, .constTy cty d => V.visit_const_ty s cty d (fun s => walk_ty V s cty)
  | s, .never => s
  | s, .invalid c => V.visit_invalid s c

/-- The default `visit_app` hook (applied type first, argument second). -/
def defaultVisitApp (S : Type) : S → Ty → Ty → (S → S) → (S → S) → S :=
  fun s _ _ visitAbs visitArg => visitArg (visitAbs s)

/-- The default `visit_const_ty` hook of a given visitor (`walk_const_ty`
from visitor.rs): visit the carrier type, then the variable or
const-parameter sub-hook according to the const type's data. -/
def defaultVisitConstTy {S : Type} (V : TyVisitor S) : S → Ty → ConstTyData → (S → S) → S :=
  fun s cty d visitCarrier =>
    let s := visitCarrier s
    match d with
    | .cVar v => V.visit_var s v
    | .cParam p => V.visit_const_param s p cty
    | .evaluated _ => s
    | .unevaluated _ => s

/-- Specification of a full traversal: every type variable of the type,
in visit order (`TyData` variables and const-type data variables, as
`walk_ty` and `walk_const_ty` reach them). -/
def varsOf : Ty → List TyVar
  | .tyVar v => [v]
  | .tyApp f x => varsOf f ++ varsOf x
  | .constTy cty d =>
    varsOf cty ++
      (match d with
        | .cVar v => [v]
        | _ => [])
  | _ => []

/-- A partial visitor: it overrides only `visit_var` (to record every
visited variable) and leaves every other hook at its structural default. -/
def varCollector : TyVisitor (List TyVar) :=
  { visit_var := fun s v => s ++ [v] }

/-- The type contains an unresolved type variable of string sort. -/
def hasStringVar : Ty → Bool
  | .tyVar v =>
    match v.sort with
    | .string _ => true
    | _ => false
  | .tyApp f x => hasStringVar f || hasStringVar x
  | .constTy cty _ => hasStringVar cty
  | _ => false

/-- The partial node is syntactically present. -/
def isPresent {α : Type} : PartialNode α → Bool
  | .present _ => true
  | .absent => false

/-- The expression data is syntactically a block. -/
def isBlockData : PartialNode Expr → Bool
  | .present (.block _) => true
  | _ => false

/-- The effect of the `new_with_func` parameter loop on the innermost
scope's binding table alone (used to state what construction registers). -/
def registerList (db : Db) (fscope : ScopeId) :
    Nat → List FuncParam → List (IdentId × LocalBinding) → List (IdentId × LocalBinding)
  | _, [], vs => vs
  | idx, p :: rest, vs =>
    match p.name with
    | none => registerList db fscope (idx + 1) rest vs
    | some nm =>
      registerList db fscope (idx + 1) rest
        (insertA nm (.param idx (lowered_param_ty db fscope p) p.is_mut) vs)

/-- One scope operation of a driving inference pass. -/
inductive ScopeOp where
  | enter (e : ExprId)
  | leave

/-- Run a sequence of `enter_scope` / `leave_scope` calls (none models a
panic anywhere in the sequence). -/
def runScopeOps (db : Db) : List ScopeOp → TyCheckEnv → Option TyCheckEnv
  | [], env => some env
  | op :: rest, env =>
    (match op with
      | .enter e => enter_scope db env e
      | .leave => leave_scope env).bind
      (runScopeOps db rest)

/-- Properly nested sequences of scope operations with equal counts of
`enter` and `leave` (Dyck words over scope operations). -/
inductive Balanced : List ScopeOp → Prop
  | nil : Balanced []
  | nest (e : ExprId) (s : List ScopeOp) : Balanced s → Balanced (.enter e :: s ++ [.leave])
  | comp (s t : List ScopeOp) : Balanced s → Balanced t → Balanced (s ++ t)

/-- A concrete database: every expression's data is a non-block
expression, every body's root expression is expression 0, lowering
always yields bool, every type passes the star-kind check. -/
def db0 : Db :=
  { exprData := fun _ _ => .present (.other 0)
    bodyExpr := fun _ => 0
    lowerHirTy := fun _ _ => .tyBase (.prim .bool)
    isStarKind := fun _ => true }

/-- A concrete database equal to `db0` except that expression 9 of every
body is a block. -/
def dbBlk : Db :=
  { db0 with exprData := fun _ e => if e = 9 then .present (.block []) else .present (.other 0) }

/-- A concrete environment whose scope stack holds exactly one (root)
scope. -/
def env0 : TyCheckEnv :=
  { body := 0
    pat_ty := []
    expr_ty := []
    callables := []
    var_env := [{ scope := .item 0, vars := [], idx := 0 }]
    pending_vars := []
    loop_stack := [] }

/-- A concrete environment with one recorded pattern type. -/
def env7 : TyCheckEnv :=
  { env0 with pat_ty := [(1, .tyBase (.prim .bool))] }

/-- A concrete expression record whose type is an unresolved string-sort
variable. -/
def propS : ExprProp :=
  { ty := .tyVar { sort := .string 5, key := 0 }, is_mut := false, binding := none }

/-- A concrete environment with one recorded expression type that is an
unresolved string-sort variable. -/
def envS : TyCheckEnv :=
  { env0 with expr_ty := [(0, propS)] }

/-- A concrete unification table that assigns nothing. -/
def T0 : UnificationTable :=
  { assign := fun _ => none
    resolved := by intro k u h; simp at h }

/-- A concrete function: body 0, one named, immutable parameter (name 5,
annotated type 0). -/
def func0 : Func :=
  { body := some 0
    params := .present [{ name := some 5, ty := .present 0, is_mut := false }]
    scope := .item 0 }

theorem lookupA_filter_ne {α : Type} {k k' : Nat} (l : List (Nat × α)) (h : k' ≠ k) :
    lookupA k' (l.filter (fun p => p.1 != k)) = lookupA k' l := by
  induction l with
  | nil => rfl
  | cons a rest ih =>
    obtain ⟨a1, a2⟩ := a
    by_cases ha : a1 = k
    · subst ha
      simp [List.filter_cons, lookupA, h, ih]
    · simp only [List.filter_cons]
      have hne : (a1 != k) = true := by simp [ha]
      rw [hne]
      simp only [lookupA, ih]

theorem lookupA_insertA_self {α : Type} (k : Nat) (v : α) (l : List (Nat × α)) :
    lookupA k (insertA k v l) = some v := by
  simp [insertA, lookupA]

theorem lookupA_insertA_ne {α : Type} {k k' : Nat} (v : α) (l : List (Nat × α)) (h : k' ≠ k) :
    lookupA k' (insertA k v l) = lookupA k' l := by
  simp [insertA, lookupA, h, lookupA_filter_ne l h]

theorem updateLast_append {α : Type} (f : α → α) (l : List α) (a : α) :
    updateLast f (l ++ [a]) = some (l ++ [f a]) := by
  induction l with
  | nil => rfl
  | cons x l ih =>
    cases l with
    | nil => rfl
    | cons y l' =>
      simp only [List.cons_append] at ih ⊢
      simp [updateLast, ih]

/-- C1 (amended): `enter_scope` always pushes one fresh, empty entry onto
the scope stack (so the stack does change even for a non-block
expression); for a block expression the entry is keyed by the block's
own scope identity, otherwise it carries the current scope's identity,
so no new lexical scope identity is introduced. -/
theorem enter_scope_entry (db : Db) (env : TyCheckEnv) (e : ExprId) :
    (∀ stmts, db.exprData env.body e = .present (.block stmts) →
      enter_scope db env e = some { env with
        var_env := env.var_env ++
          [{ scope := .block env.body e, vars := [], idx := env.var_env.length }] }) ∧
    (∀ s, isBlockData (db.exprData env.body e) = false → scope env = some s →
      enter_scope db env e = some { env with
        var_env := env.var_env ++
          [{ scope := s, vars := [], idx := env.var_env.length }] }) := by
  constructor
  · intro stmts h
    simp [enter_scope, h]
  · intro s hnb hs
    cases hd : db.exprData env.body e with
    | present ex =>
      cases ex with
      | block stmts => rw [hd] at hnb; simp [isBlockData] at hnb
      | other tag => simp [enter_scope, hd, hs]
    | absent => simp [enter_scope, hd, hs]

/-- C1: counterexample to the claim as stated.  Expression 7 of `env0`'s
body is not syntactically a block, yet `enter_scope` does change the
scope stack: the stack grows from one entry to two. -/
theorem enter_scope_nonblock_changes_stack :
    isBlockData (db0.exprData env0.body 7) = false ∧
    (enter_scope db0 env0 7).map (fun e => e.var_env.length) = some 2 ∧
    env0.var_env.length = 1 := by
  decide

theorem enter_scope_entry_witness :
    enter_scope db0 env0 7 = some { env0 with
      var_env := env0.var_env ++ [{ scope := .item 0, vars := [], idx := 1 }] } ∧
    enter_scope dbBlk env0 9 = some { env0 with
      var_env := env0.var_env ++ [{ scope := .block 0 9, vars := [], idx := 1 }] } :=
  ⟨(enter_scope_entry db0 env0 7).2 (.item 0) (by decide) (by decide),
   (enter_scope_entry dbBlk env0 9).1 [] (by decide)⟩

/-- C5: registering a callable for an expression with no recorded
callable succeeds, and registering a second callable for the same
expression afterwards panics (is fatal) instead of returning or
silently overwriting. -/
theorem register_callable_unique (env : TyCheckEnv) (e : ExprId) (c c' : Callable)
    (h : lookupA e env.callables = none) :
    register_callable env e c = some { env with callables := insertA e c env.callables } ∧
    ∀ env', register_callable env e c = some env' → register_callable env' e c' = none := by
  have h1 : register_callable env e c =
      some { env with callables := insertA e c env.callables } := by
    simp [register_callable, h]
  refine ⟨h1, ?_⟩
  intro env' henv'
  rw [h1] at henv'
  injection henv' with henv'
  subst henv'
  simp [register_callable, lookupA_insertA_self]

theorem register_callable_unique_witness :
    register_callable env0 3 { ty := .never } =
      some { env0 with callables := insertA 3 { ty := .never } env0.callables } ∧
    register_callable { env0 with callables := insertA 3 { ty := .never } env0.callables } 3
      { ty := .never } = none := by
  obtain ⟨h1, h2⟩ := register_callable_unique env0 3 { ty := .never } { ty := .never } rfl
  exact ⟨h1, h2 _ h1⟩

/-- C7: `lookup_binding_ty` returns the stored type of a parameter
binding directly, and for a local binding the type recorded for its
pattern, falling back to the invalid marker (no panic) when the pattern
was never typed. -/
theorem lookup_binding_ty_cases (env : TyCheckEnv) :
    (∀ pat m t, lookupA pat env.pat_ty = some t →
      lookup_binding_ty env (.localPat pat m) = t) ∧
    (∀ pat m, lookupA pat env.pat_ty = none →
      lookup_binding_ty env (.localPat pat m) = .invalid .other) ∧
    (∀ idx ty m, lookup_binding_ty env (.param idx ty m) = ty) := by
  refine ⟨?_, ?_, ?_⟩
  · intro pat m t h; simp [lookup_binding_ty, h]
  · intro pat m h; simp [lookup_binding_ty, h]
  · intro idx ty m; rfl

theorem lookup_binding_ty_cases_witness :
    lookup_binding_ty env7 (.localPat 1 false) = .tyBase (.prim .bool) ∧
    lookup_binding_ty env7 (.localPat 2 false) = .invalid .other ∧
    lookup_binding_ty env7 (.param 0 .never true) = .never :=
  ⟨(lookup_binding_ty_cases env7).1 1 false _ rfl,
   (lookup_binding_ty_cases env7).2.1 2 false rfl,
   (lookup_binding_ty_cases env7).2.2 0 .never true⟩

/-- C9: popping the lone root scope does not abort at that call:
`leave_scope` succeeds and leaves an empty scope stack; the operations
that read the stack top (`scope`, `flush_pending_bindings`, another
`leave_scope`) are the ones that then panic, and `leave_scope` itself
panics exactly when the stack is already empty when it is called. -/
theorem leave_scope_root_pop (env : TyCheckEnv) (h : env.var_env.length = 1) :
    leave_scope env = some { env with var_env := [] } ∧
    scope { env with var_env := ([] : List BlockEnv) } = none ∧
    leave_scope { env with var_env := ([] : List BlockEnv) } = none ∧
    flush_pending_bindings { env with var_env := ([] : List BlockEnv) } = none ∧
    ∀ e : TyCheckEnv, leave_scope e = none ↔ e.var_env = [] := by
  refine ⟨?_, rfl, rfl, rfl, ?_⟩
  · obtain ⟨a, ha⟩ : ∃ a, env.var_env = [a] := by
      cases hv : env.var_env with
      | nil => rw [hv] at h; simp at h
      | cons a l =>
        cases l with
        | nil => exact ⟨a, rfl⟩
        | cons b l' => rw [hv] at h; simp at h
    simp [leave_scope, ha]
  · intro e
    cases hv : e.var_env with
    | nil => simp [leave_scope, hv]
    | cons a l => simp [leave_scope, hv]

theorem leave_scope_root_pop_witness :
    leave_scope env0 = some { env0 with var_env := [] } ∧
    scope { env0 with var_env := ([] : List BlockEnv) } = none ∧
    flush_pending_bindings { env0 with var_env := ([] : List BlockEnv) } = none :=
  ⟨(leave_scope_root_pop env0 rfl).1,
   (leave_scope_root_pop env0 rfl).2.1,
   (leave_scope_root_pop env0 rfl).2.2.2.1⟩

theorem foldl_register_var_vars (l : List (IdentId × LocalBinding)) :
    ∀ B : BlockEnv, (l.foldl (fun B p => register_var B p.1 p.2) B).vars =
      l.foldl (fun vs p => insertA p.1 p.2 vs) B.vars := by
  induction l with
  | nil => intro B; rfl
  | cons p rest ih =>
    intro B
    simp only [List.foldl_cons]
    rw [ih]
    rfl

theorem lookupA_foldl_insert_ne {α : Type} (n : Nat) (l : List (Nat × α))
    (hl : ∀ p ∈ l, p.1 ≠ n) :
    ∀ vs, lookupA n (l.foldl (fun vs p => insertA p.1 p.2 vs) vs) = lookupA n vs := by
  induction l with
  | nil => intro vs; rfl
  | cons p rest ih =>
    intro vs
    simp only [List.foldl_cons]
    rw [ih (fun q hq => hl q (List.mem_cons_of_mem p hq))]
    exact lookupA_insertA_ne _ _ (fun he => hl p (List.mem_cons_self p rest) he.symm)

theorem leave_scope_concat (env : TyCheckEnv) (L : List BlockEnv) (B : BlockEnv)
    (h : env.var_env = L ++ [B]) :
    leave_scope env = some { env with var_env := L } := by
  cases hv : env.var_env with
  | nil => rw [hv] at h; exact absurd h.symm (by simp)
  | cons a l =>
    simp only [leave_scope, hv]
    rw [← hv, h, List.dropLast_concat]

/-- C4: a binding staged by `register_pending_binding` touches no scope
(the scope stack is unchanged, so no scope can newly map the name to the
binding and lookup cannot find it); after `flush_pending_bindings` the
current (innermost) scope maps the name to the binding and the staging
table is empty, so a second flush with no new registrations leaves the
environment (in particular every scope) unchanged. -/
theorem pending_binding_flush (env : TyCheckEnv) (n : IdentId) (b : LocalBinding)
    (hne : env.var_env ≠ []) :
    (register_pending_binding env n b).var_env = env.var_env ∧
    ∃ env2, flush_pending_bindings (register_pending_binding env n b) = some env2 ∧
      (∃ B, env2.var_env.getLast? = some B ∧ lookupA n B.vars = some b) ∧
      env2.pending_vars = [] ∧
      flush_pending_bindings env2 = some env2 := by
  refine ⟨rfl, ?_⟩
  obtain ⟨L, B0, hL⟩ : ∃ L B0, env.var_env = L ++ [B0] :=
    ⟨env.var_env.dropLast, env.var_env.getLast hne,
      (List.dropLast_append_getLast hne).symm⟩
  refine ⟨{ env with
      var_env := L ++ [(insertA n b env.pending_vars).foldl
        (fun B p => register_var B p.1 p.2) B0]
      pending_vars := [] }, ?_, ?_, rfl, ?_⟩
  · simp only [flush_pending_bindings, register_pending_binding, hL, updateLast_append,
      Option.map_some']
  · refine ⟨_, List.getLast?_concat _, ?_⟩
    rw [foldl_register_var_vars]
    show lookupA n (List.foldl _ _ ((n, b) :: _)) = some b
    simp only [List.foldl_cons]
    rw [lookupA_foldl_insert_ne]
    · exact lookupA_insertA_self n b B0.vars
    · intro p hp
      have := List.of_mem_filter hp
      simpa using this
  · simp only [flush_pending_bindings, List.foldl_nil, updateLast_append,
      Option.map_some']

theorem pending_binding_flush_witness :
    (register_pending_binding env0 6 (.localPat 2 false)).var_env = env0.var_env ∧
    (flush_pending_bindings (register_pending_binding env0 6 (.localPat 2 false))).isSome = true := by
  obtain ⟨h1, env2, h2, -, -, -⟩ := pending_binding_flush env0 6 (.localPat 2 false) (by decide)
  exact ⟨h1, by rw [h2]; rfl⟩

theorem enter_scope_shape (db : Db) (env : TyCheckEnv) (e : ExprId) (h : env.var_env ≠ []) :
    ∃ ns, enter_scope db env e = some { env with
      var_env := env.var_env ++ [{ scope := ns, vars := [], idx := env.var_env.length }] } := by
  obtain ⟨L, B0, hL⟩ : ∃ L B0, env.var_env = L ++ [B0] :=
    ⟨env.var_env.dropLast, env.var_env.getLast h,
      (List.dropLast_append_getLast h).symm⟩
  cases hd : db.exprData env.body e with
  | present ex =>
    cases ex with
    | block stmts => exact ⟨.block env.body e, by simp [enter_scope, hd]⟩
    | other tag =>
      exact ⟨B0.scope, by simp [enter_scope, hd, scope, hL, List.getLast?_concat]⟩
  | absent =>
    exact ⟨B0.scope, by simp [enter_scope, hd, scope, hL, List.getLast?_concat]⟩

theorem runScopeOps_append (db : Db) (s t : List ScopeOp) :
    ∀ env, runScopeOps db (s ++ t) env = (runScopeOps db s env).bind (runScopeOps db t) := by
  induction s with
  | nil => intro env; rfl
  | cons op s ih =>
    intro env
    simp only [List.cons_append, runScopeOps]
    cases (match op with
      | .enter e => enter_scope db env e
      | .leave => leave_scope env) with
    | none => rfl
    | some env' => simp [ih]

/-- C6: any properly nested sequence of `enter_scope` / `leave_scope`
calls with equal counts restores the environment exactly: no panic
occurs, the scope-stack depth afterwards equals the depth before, and
the active scope (indeed the whole environment) is unchanged; in
particular `enter_scope` immediately followed by `leave_scope` restores
the prior stack. -/
theorem balanced_scope_ops (db : Db) (ops : List ScopeOp) (hb : Balanced ops) :
    ∀ env : TyCheckEnv, env.var_env ≠ [] → runScopeOps db ops env = some env := by
  induction hb with
  | nil => intro env h; rfl
  | nest e s hs ih =>
    intro env h
    obtain ⟨ns, hns⟩ := enter_scope_shape db env e h
    show runScopeOps db (ScopeOp.enter e :: (s ++ [ScopeOp.leave])) env = some env
    simp only [runScopeOps]
    rw [hns, Option.some_bind, runScopeOps_append db s [ScopeOp.leave],
      ih _ (by simp), Option.some_bind]
    simp only [runScopeOps]
    rw [leave_scope_concat _ env.var_env
        { scope := ns, vars := [], idx := env.var_env.length } rfl,
      Option.some_bind]
  | comp s t hs ht ihs iht =>
    intro env h
    rw [runScopeOps_append, ihs env h]
    exact iht env h

theorem balanced_scope_ops_witness :
    runScopeOps db0 [.enter 4, .enter 5, .leave, .leave] env0 = some env0 := by
  have h1 : Balanced [ScopeOp.enter 5, .leave] := Balanced.nest 5 [] Balanced.nil
  have h2 : Balanced [ScopeOp.enter 4, .enter 5, .leave, .leave] :=
    Balanced.nest 4 [ScopeOp.enter 5, .leave] h1
  exact balanced_scope_ops db0 _ h2 env0 (by decide)

theorem registerParams_concat (db : Db) (fs : ScopeId) :
    ∀ (ps : List FuncParam) (idx : Nat) (env : TyCheckEnv) (L : List BlockEnv) (B : BlockEnv),
      env.var_env = L ++ [B] →
      registerParams db fs idx ps env =
        some { env with var_env := L ++ [{ B with vars := registerList db fs idx ps B.vars }] } := by
  intro ps
  induction ps with
  | nil =>
    intro idx env L B h
    simp only [registerParams, registerList]
    rw [← h]
  | cons p rest ih =>
    intro idx env L B h
    cases hn : p.name with
    | none =>
      simp only [registerParams, registerList, hn]
      exact ih _ _ L B h
    | some nm =>
      simp only [registerParams, registerList, hn]
      rw [h, updateLast_append, Option.map_some', Option.some_bind]
      exact ih _ _ L (register_var B nm (.param idx (lowered_param_ty db fs p) p.is_mut)) rfl

theorem registerList_append (db : Db) (fs : ScopeId) (l1 l2 : List FuncParam) :
    ∀ idx vs, registerList db fs idx (l1 ++ l2) vs =
      registerList db fs (idx + l1.length) l2 (registerList db fs idx l1 vs) := by
  induction l1 with
  | nil => intro idx vs; simp [registerList]
  | cons p rest ih =>
    intro idx vs
    cases hn : p.name with
    | none =>
      show registerList db fs idx (p :: (rest ++ l2)) vs = _
      simp only [registerList, hn, List.length_cons]
      rw [ih, show idx + 1 + rest.length = idx + (rest.length + 1) from by omega]
    | some nm =>
      show registerList db fs idx (p :: (rest ++ l2)) vs = _
      simp only [registerList, hn, List.length_cons]
      rw [ih, show idx + 1 + rest.length = idx + (rest.length + 1) from by omega]

theorem registerList_no_name (db : Db) (fs : ScopeId) (nm : IdentId) :
    ∀ (ps : List FuncParam) (idx : Nat) (vs : List (IdentId × LocalBinding)),
      (∀ q ∈ ps, q.name ≠ some nm) →
      lookupA nm (registerList db fs idx ps vs) = lookupA nm vs := by
  intro ps
  induction ps with
  | nil => intro idx vs _; rfl
  | cons p rest ih =>
    intro idx vs hq
    cases hn : p.name with
    | none =>
      simp only [registerList, hn]
      exact ih _ _ (fun q h => hq q (List.mem_cons_of_mem p h))
    | some m =>
      have hm : m ≠ nm := fun he => hq p (List.mem_cons_self p rest) (by rw [hn, he])
      simp only [registerList, hn]
      rw [ih _ _ (fun q h => hq q (List.mem_cons_of_mem p h))]
      exact lookupA_insertA_ne _ _ (fun he => hm he.symm)

/-- C10: `new_with_func` fails exactly when the function has no body or
its parameter list is syntactically absent; these are the only failure
modes, so in particular a parameter whose declared type is absent or
ill-kinded never causes construction to fail. -/
theorem new_with_func_failure_modes (db : Db) (f : Func) :
    (new_with_func db f).isSome = true ↔ (f.body.isSome = true ∧ isPresent f.params = true) := by
  cases hb : f.body with
  | none => simp [new_with_func, hb]
  | some body =>
    simp only [new_with_func, hb, Option.isSome_some, true_and]
    obtain ⟨ns, hns⟩ := enter_scope_shape db
      { body := body, pat_ty := [], expr_ty := [], callables := [],
        var_env := [{ scope := f.scope, vars := [], idx := 0 }],
        pending_vars := [], loop_stack := [] }
      (db.bodyExpr body) (by simp)
    rw [hns, Option.some_bind]
    cases hp : f.params with
    | absent => simp [isPresent]
    | present ps =>
      simp only [isPresent]
      rw [registerParams_concat db f.scope ps 0 _
        [{ scope := f.scope, vars := [], idx := 0 }]
        { scope := ns, vars := [], idx := 1 } rfl]
      simp

/-- C2 (amended): successful construction registers each named parameter
(as a `Param` binding with its index, lowered type, and mutability) in
the current innermost scope — the entry pushed for the function's
top-level body expression, at stack position 1 — while the root scope
seeded at stack position 0 from the function's own definition scope
keeps an empty binding table. -/
theorem new_with_func_param_bindings (db : Db) (f : Func) (env : TyCheckEnv)
    (ps : List FuncParam)
    (hok : new_with_func db f = some env)
    (hps : f.params = .present ps)
    (hnd : (ps.filterMap FuncParam.name).Nodup) :
    env.var_env.length = 2 ∧
    env.var_env.head? = some { scope := f.scope, vars := [], idx := 0 } ∧
    ∀ i p nm, ps[i]? = some p → p.name = some nm →
      ∃ B, env.var_env.getLast? = some B ∧
        lookupA nm B.vars = some (.param i (lowered_param_ty db f.scope p) p.is_mut) := by
  cases hb : f.body with
  | none => rw [new_with_func, hb] at hok; cases hok
  | some body =>
    simp only [new_with_func, hb] at hok
    obtain ⟨ns, hns⟩ := enter_scope_shape db
      { body := body, pat_ty := [], expr_ty := [], callables := [],
        var_env := [{ scope := f.scope, vars := [], idx := 0 }],
        pending_vars := [], loop_stack := [] }
      (db.bodyExpr body) (by simp)
    rw [hns, Option.some_bind] at hok
    simp only [hps] at hok
    rw [registerParams_concat db f.scope ps 0 _
        [{ scope := f.scope, vars := [], idx := 0 }]
        { scope := ns, vars := [], idx := 1 } rfl] at hok
    injection hok with hok
    subst hok
    refine ⟨rfl, rfl, ?_⟩
    intro i p nm hip hnm
    have hilen : i < ps.length := by
      by_contra hge
      rw [List.getElem?_eq_none (by omega)] at hip
      cases hip
    have hget : ps[i] = p := by
      have := List.getElem?_eq_getElem hilen
      rw [hip] at this
      injection this with this
      exact this.symm
    have hdecomp : ps = ps.take i ++ p :: ps.drop (i + 1) := by
      rw [← hget, ← List.drop_eq_getElem_cons hilen, List.take_append_drop]
    refine ⟨_, List.getLast?_concat _, ?_⟩
    show lookupA nm (registerList db f.scope 0 ps []) = _
    rw [hdecomp, registerList_append]
    have hlt : (ps.take i).length = i := by
      rw [List.length_take]
      omega
    rw [hlt]
    have hnotin : ∀ q ∈ ps.drop (i + 1), q.name ≠ some nm := by
      intro q hq hqe
      have hmem : nm ∈ (ps.drop (i + 1)).filterMap FuncParam.name :=
        List.mem_filterMap.mpr ⟨q, hq, hqe⟩
      have hnd2 : ((ps.take i ++ p :: ps.drop (i + 1)).filterMap FuncParam.name).Nodup := by
        rw [← hdecomp]; exact hnd
      rw [List.filterMap_append, List.filterMap_cons, hnm] at hnd2
      have := (List.Nodup.of_append_right hnd2)
      rw [List.nodup_cons] at this
      exact this.1 hmem
    simp only [registerList, hnm]
    rw [registerList_no_name db f.scope nm _ _ _ hnotin]
    simp only [Nat.zero_add]
    exact lookupA_insertA_self nm _ _

/-- C2: counterexample to the claim as stated.  Construction from
`func0` (whose single parameter is named 5) succeeds, but the root scope
— the entry seeded at stack position 0 from the function's definition
scope — does not map name 5 at all: the binding sits in the scope
entered for the body expression, at stack position 1. -/
theorem params_not_in_root_scope :
    (new_with_func db0 func0).map (fun e => e.var_env.head?.map (fun B => lookupA 5 B.vars)) =
      some (some none) ∧
    (new_with_func db0 func0).map (fun e => e.var_env.getLast?.map (fun B => lookupA 5 B.vars)) =
      some (some (some (.param 0 (.tyBase (.prim .bool)) false))) := by
  decide

theorem new_with_func_param_bindings_witness :
    (new_with_func db0 func0).map (fun e => e.var_env.length) = some 2 ∧
    (new_with_func db0 func0).map
        (fun e => e.var_env.getLast?.map (fun B => lookupA 5 B.vars)) =
      some (some (some (.param 0 (lowered_param_ty db0 (.item 0)
        { name := some 5, ty := .present 0, is_mut := false }) false))) := by
  cases hok : new_with_func db0 func0 with
  | none => exact absurd hok (by decide)
  | some env =>
    obtain ⟨h1, h2, h3⟩ := new_with_func_param_bindings db0 func0 env
      [{ name := some 5, ty := .present 0, is_mut := false }] hok rfl (by decide)
    obtain ⟨B, hB, hl⟩ := h3 0 { name := some 5, ty := .present 0, is_mut := false } 5 rfl rfl
    simp [h1, hB, hl, func0]

theorem sizeTy_pos : ∀ t : Ty, 1 ≤ sizeTy t := by
  intro t
  cases t <;> simp [sizeTy]

theorem tableFold_fixed (a : Nat → Option Ty) :
    ∀ t : Ty, noAssigned a t = true → tableFold a t = t := by
  intro t
  induction t with
  | tyVar v =>
    intro h
    simp only [noAssigned, Option.isNone_iff_eq_none] at h
    simp [tableFold, h]
  | tyApp f x ihf ihx =>
    intro h
    simp only [noAssigned, Bool.and_eq_true] at h
    simp [tableFold, ihf h.1, ihx h.2]
  | constTy cty d ih =>
    intro h
    simp only [noAssigned] at h
    simp [tableFold, ih h]
  | tyParam p => intro _; rfl
  | tyBase b => intro _; rfl
  | never => intro _; rfl
  | invalid c => intro _; rfl

theorem noAssigned_tableFold (T : UnificationTable) :
    ∀ t : Ty, noAssigned T.assign (tableFold T.assign t) = true := by
  intro t
  induction t with
  | tyVar v =>
    cases h : T.assign v.key with
    | none => simp [tableFold, h, noAssigned]
    | some u => simpa [tableFold, h] using T.resolved v.key u h
  | tyApp f x ihf ihx => simp [tableFold, noAssigned, ihf, ihx]
  | constTy cty d ih => simpa [tableFold, noAssigned] using ih
  | tyParam p => rfl
  | tyBase b => rfl
  | never => rfl
  | invalid c => rfl

theorem finFoldAux_no_string (T : UnificationTable) :
    ∀ (fuel : Nat) (t : Ty), sizeTy (tableFold T.assign t) ≤ fuel →
      hasStringVar (finFoldAux T fuel t) = false := by
  intro fuel
  induction fuel with
  | zero =>
    intro t h
    have := sizeTy_pos (tableFold T.assign t)
    omega
  | succ fuel ih =>
    intro t h
    have hfix := noAssigned_tableFold T t
    cases ht : tableFold T.assign t with
    | tyVar v =>
      simp only [finFoldAux, ht]
      cases hs : v.sort with
      | string len => rfl
      | general => simp [hasStringVar, hs]
      | integral => simp [hasStringVar, hs]
    | tyApp f x =>
      rw [ht] at hfix h
      simp only [noAssigned, Bool.and_eq_true] at hfix
      have hf := tableFold_fixed T.assign f hfix.1
      have hx := tableFold_fixed T.assign x hfix.2
      simp only [sizeTy] at h
      have hposf := sizeTy_pos f
      have hposx := sizeTy_pos x
      have hsf : sizeTy (tableFold T.assign f) ≤ fuel := by rw [hf]; omega
      have hsx : sizeTy (tableFold T.assign x) ≤ fuel := by rw [hx]; omega
      simp [finFoldAux, ht, hasStringVar, ih f hsf, ih x hsx]
    | constTy cty d =>
      rw [ht] at hfix h
      simp only [noAssigned] at hfix
      have hc := tableFold_fixed T.assign cty hfix
      simp only [sizeTy] at h
      have hsc : sizeTy (tableFold T.assign cty) ≤ fuel := by rw [hc]; omega
      simp [finFoldAux, ht, hasStringVar, ih cty hsc]
    | tyParam p => simp [finFoldAux, ht, hasStringVar]
    | tyBase b => simp [finFoldAux, ht, hasStringVar]
    | never => simp [finFoldAux, ht, hasStringVar]
    | invalid c => simp [finFoldAux, ht, hasStringVar]

theorem finFoldAux_id_of_no_string (T : UnificationTable) :
    ∀ (fuel : Nat) (t : Ty), sizeTy (tableFold T.assign t) ≤ fuel →
      hasStringVar (tableFold T.assign t) = false →
      finFoldAux T fuel t = tableFold T.assign t := by
  intro fuel
  induction fuel with
  | zero => intro t _ _; rfl
  | succ fuel ih =>
    intro t h hs
    have hfix := noAssigned_tableFold T t
    cases ht : tableFold T.assign t with
    | tyVar v =>
      rw [ht] at hs
      simp only [finFoldAux, ht]
      cases hsv : v.sort with
      | string len => simp [hasStringVar, hsv] at hs
      | general => simp [hsv]
      | integral => simp [hsv]
    | tyApp f x =>
      rw [ht] at hfix hs h
      simp only [noAssigned, Bool.and_eq_true] at hfix
      have hf := tableFold_fixed T.assign f hfix.1
      have hx := tableFold_fixed T.assign x hfix.2
      have hs' : hasStringVar f = false ∧ hasStringVar x = false := by
        revert hs
        simp only [hasStringVar]
        cases hasStringVar f <;> cases hasStringVar x <;> simp
      simp only [sizeTy] at h
      have hposf := sizeTy_pos f
      have hposx := sizeTy_pos x
      simp only [finFoldAux, ht]
      rw [ih f (by rw [hf]; omega) (by rw [hf]; exact hs'.1),
        ih x (by rw [hx]; omega) (by rw [hx]; exact hs'.2), hf, hx]
    | constTy cty d =>
      rw [ht] at hfix hs h
      simp only [noAssigned] at hfix
      have hc := tableFold_fixed T.assign cty hfix
      simp only [hasStringVar] at hs
      simp only [sizeTy] at h
      simp only [finFoldAux, ht]
      rw [ih cty (by rw [hc]; omega) (by rw [hc]; exact hs), hc]
    | tyParam p => simp [finFoldAux, ht]
    | tyBase b => simp [finFoldAux, ht]
    | never => simp [finFoldAux, ht]
    | invalid c => simp [finFoldAux, ht]

theorem hasStringVar_finFold (T : UnificationTable) (t : Ty) :
    hasStringVar (finFold T t) = false :=
  finFoldAux_no_string T _ t (Nat.le_refl _)

theorem finFoldAux_succ_string (T : UnificationTable) (fuel : Nat) (t : Ty) (v : TyVar)
    (len : Nat) (h : tableFold T.assign t = .tyVar v) (hs : v.sort = .string len) :
    finFoldAux T (fuel + 1) t = stringTyApp len := by
  simp only [finFoldAux, h, hs]

/-- C3: after `finish`, no expression type, pattern type, or callable in
the resulting `TypedBody` contains an unresolved type variable of string
sort; a string-sort variable surviving substitution is replaced by the
base string type applied to the concrete const length tracked by the
variable, and whenever substitution produces no string-sort variable the
finisher returns exactly what substitution produces (no other
defaulting). -/
theorem finish_defaulting (env : TyCheckEnv) (T : UnificationTable) :
    (∀ p ∈ (finish env T).expr_ty, hasStringVar p.2.ty = false) ∧
    (∀ p ∈ (finish env T).pat_ty, hasStringVar p.2 = false) ∧
    (∀ p ∈ (finish env T).callables, hasStringVar p.2.ty = false) ∧
    (∀ t v len, tableFold T.assign t = .tyVar v → v.sort = .string len →
      finFold T t = stringTyApp len) ∧
    (∀ t, hasStringVar (tableFold T.assign t) = false →
      finFold T t = tableFold T.assign t) := by
  refine ⟨?_, ?_, ?_, ?_, ?_⟩
  · intro p hp
    simp only [finish, List.mem_map] at hp
    obtain ⟨q, hq, rfl⟩ := hp
    exact hasStringVar_finFold T q.2.ty
  · intro p hp
    simp only [finish, List.mem_map] at hp
    obtain ⟨q, hq, rfl⟩ := hp
    exact hasStringVar_finFold T q.2
  · intro p hp
    simp only [finish, List.mem_map] at hp
    obtain ⟨q, hq, rfl⟩ := hp
    exact hasStringVar_finFold T q.2.ty
  · intro t v len h hs
    rw [finFold, h]
    have hone : sizeTy (Ty.tyVar v) = 0 + 1 := rfl
    rw [hone]
    exact finFoldAux_succ_string T 0 t v len h hs
  · intro t hs
    exact finFoldAux_id_of_no_string T _ t (Nat.le_refl _) hs

theorem finish_defaulting_witness :
    hasStringVar (finFold T0 propS.ty) = false ∧
    finFold T0 (Ty.tyBase (.prim .bool)) = tableFold T0.assign (Ty.tyBase (.prim .bool)) := by
  constructor
  · have hmem : ((0 : Nat), propS) ∈ envS.expr_ty := by simp [envS]
    exact (finish_defaulting envS T0).1 _ (List.mem_map_of_mem _ hmem)
  · exact (finish_defaulting envS T0).2.2.2.2 _ (by decide)

/-- C8: the default visitor hooks perform the canonical structural
recursion — the default `visit_app` visits the applied type first and
the argument second, and the default `visit_const_ty` visits the carrier
type and then, depending on the const type's data, the variable or
const-parameter sub-hook — and a visitor that overrides only some hooks
still has every component of a composite type visited: the partial
visitor `varCollector`, which overrides only `visit_var`, reaches
exactly the variables of the type, in visit order. -/
theorem visitor_structural_defaults :
    (∀ (S : Type) (V : TyVisitor S), V.visit_app = defaultVisitApp S →
      ∀ s f x, walk_ty V s (.tyApp f x) = walk_ty V (walk_ty V s f) x) ∧
    (∀ (S : Type) (V : TyVisitor S), V.visit_const_ty = defaultVisitConstTy V →
      ∀ s cty d, walk_ty V s (.constTy cty d) =
        match d with
        | .cVar v => V.visit_var (walk_ty V s cty) v
        | .cParam p => V.visit_const_param (walk_ty V s cty) p cty
        | .evaluated _ => walk_ty V s cty
        | .unevaluated _ => walk_ty V s cty) ∧
    (∀ t s, walk_ty varCollector s t = s ++ varsOf t) := by
  refine ⟨?_, ?_, ?_⟩
  · intro S V h s f x
    simp [walk_ty, h, defaultVisitApp]
  · intro S V h s cty d
    cases d <;> simp [walk_ty, h, defaultVisitConstTy]
  · intro t
    induction t with
    | tyVar v => intro s; rfl
    | tyParam p => intro s; exact (List.append_nil s).symm
    | tyApp f x ihf ihx =>
      intro s
      have hstep : walk_ty varCollector s (.tyApp f x) =
          walk_ty varCollector (walk_ty varCollector s f) x := rfl
      rw [hstep, ihf, ihx]
      simp [varsOf, List.append_assoc]
    | tyBase b => intro s; cases b <;> exact (List.append_nil s).symm
    | constTy cty d ih =>
      intro s
      cases d with
      | cVar v =>
        have hstep : walk_ty varCollector s (.constTy cty (.cVar v)) =
            walk_ty varCollector s cty ++ [v] := rfl
        rw [hstep, ih]
        simp [varsOf, List.append_assoc]
      | cParam p =>
        have hstep : walk_ty varCollector s (.constTy cty (.cParam p)) =
            walk_ty varCollector s cty := rfl
        rw [hstep, ih]
        simp [varsOf]
      | evaluated e =>
        have hstep : walk_ty varCollector s (.constTy cty (.evaluated e)) =
            walk_ty varCollector s cty := rfl
        rw [hstep, ih]
        simp [varsOf]
      | unevaluated body =>
        have hstep : walk_ty varCollector s (.constTy cty (.unevaluated body)) =
            walk_ty varCollector s cty := rfl
        rw [hstep, ih]
        simp [varsOf]
    | never => intro s; exact (List.append_nil s).symm
    | invalid c => intro s; exact (List.append_nil s).symm

theorem visitor_structural_defaults_witness :
    walk_ty varCollector [] (.tyApp (.tyVar { sort := .general, key := 1 })
        (.constTy (.tyVar { sort := .general, key := 2 })
          (.cVar { sort := .integral, key := 3 }))) =
      [{ sort := .general, key := 1 }, { sort := .general, key := 2 },
        { sort := .integral, key := 3 }] ∧
    walk_ty varCollector [] (.tyApp .never .never) =
      walk_ty varCollector (walk_ty varCollector [] .never) .never :=
  ⟨visitor_structural_defaults.2.2 _ [],
   visitor_structural_defaults.1 (List TyVar) varCollector rfl [] .never .never⟩

end Fe
